import Mathlib

/-!
Verification of the emlop emerge-log parser against its specification.

The Rust sources (src/parser.rs, src/date.rs, src/main.rs) are embedded
shallowly: Rust strings become `List Char`, fallible operations become
`Option`, and a slice operation that can abort the program becomes
`Except Unit` (`.error ()` marks an aborted line parser).  Rust byte
indices agree with character indices on ASCII data; a multi-byte
character can never contain an ASCII byte such as a dash, so searches
and the digit test after a dash coincide at character level as well.
All numeric types are `Int` with explicit 64-bit bounds where the code
relies on them.
-/

namespace Emlop

/-! ### Character and string helpers (ASCII semantics of the Rust std) -/
/-- Rust `u8::is_ascii_digit` applied to the leading byte of a char. -/
def isAsciiDigit (c : Char) : Bool := '0' ≤ c && c ≤ '9'

/-- Rust `char::is_ascii_whitespace`: space, tab, newline, form feed, carriage return. -/
def isAsciiWhitespace (c : Char) : Bool :=
  c = ' ' || c = '\t' || c = '\n' || c = '\x0c' || c = '\r'

/-- Rust `str::find(c)`: index of the first occurrence of character c. -/
def strFind (c : Char) : List Char → Option Nat
  | [] => none
  | d :: l => if d = c then some 0 else (strFind c l).map (· + 1)

/-- Rust `str::trim_start` (ASCII whitespace; the log is ASCII). -/
def trimStart (l : List Char) : List Char := l.dropWhile isAsciiWhitespace

/-- Rust `str::trim` (ASCII whitespace on both ends). -/
def trim (l : List Char) : List Char :=
  ((l.dropWhile isAsciiWhitespace).reverse.dropWhile isAsciiWhitespace).reverse

/-- Accumulator loop of `split_ascii_whitespace`: `cur` holds the current
token reversed. -/
def splitAWGo (cur : List Char) : List Char → List (List Char)
  | [] => if cur = [] then [] else [cur.reverse]
  | c :: rest =>
    if isAsciiWhitespace c then
      if cur = [] then splitAWGo [] rest else cur.reverse :: splitAWGo [] rest
    else splitAWGo (c :: cur) rest

/-- Rust `str::split_ascii_whitespace`, materialised as a token list. -/
def splitAsciiWhitespace (l : List Char) : List (List Char) := splitAWGo [] l

/-- One `Iterator::nth n` step on a token list: the yielded element and the
iterator state afterwards (elements 0..n are consumed). -/
def iterNth (l : List (List Char)) (n : Nat) : Option (List Char) × List (List Char) :=
  (l[n]?, l.drop (n + 1))

/-- Rust slice `&l[a..b]`. Bounds are checked by the caller. -/
def listSlice (l : List Char) (a b : Nat) : List Char := (l.take b).drop a

/-- Smallest value of Rust `i64`. -/
def i64Min : Int := -(2 ^ 63)

/-- Largest value of Rust `i64`. -/
def i64Max : Int := 2 ^ 63 - 1

/-- Digit-run to number. -/
def digitsVal (l : List Char) : Nat := l.foldl (fun a c => 10 * a + (c.toNat - '0'.toNat)) 0

/-- Rust `str::parse::<i64>`: optional sign, then one or more ASCII digits,
nothing else, and the value must fit in an `i64`. -/
def parseI64 (l : List Char) : Option Int :=
  let core : List Char → Bool → Option Int := fun ds neg =>
    if ds = [] || !(ds.all isAsciiDigit) then none
    else
      let v : Int := if neg then -(digitsVal ds : Int) else (digitsVal ds : Int)
      if i64Min ≤ v ∧ v ≤ i64Max then some v else none
  match l with
  | '+' :: ds => core ds false
  | '-' :: ds => core ds true
  | ds => core ds false

/-! ### src/parser.rs: the event type -/
/-- Items sent on the channel returned by `new_hist()` (parser.rs `Hist`). -/
inductive Hist
  | MergeStart (ts : Int) (key : List Char) (pos1 pos2 : Nat)
  | MergeStop (ts : Int) (key : List Char) (pos1 pos2 : Nat)
  | UnmergeStart (ts : Int) (key : List Char) (pos : Nat)
  | UnmergeStop (ts : Int) (key : List Char) (pos : Nat)
  | SyncStart (ts : Int)
  | SyncStop (ts : Int)
  deriving DecidableEq, Repr

/-- `Hist::ebuild`: `&key[..pos1-1]`. The sync arms are `unreachable!` in the
source; they are mapped to `[]` here and are touched by no claim. -/
def Hist.ebuild : Hist → List Char
  | .MergeStart _ key pos1 _ => key.take (pos1 - 1)
  | .MergeStop _ key pos1 _ => key.take (pos1 - 1)
  | .UnmergeStart _ key pos => key.take (pos - 1)
  | .UnmergeStop _ key pos => key.take (pos - 1)
  | _ => []

/-- `Hist::version`: `&key[pos1..pos2]` (merge) or `&key[pos..]` (unmerge). -/
def Hist.version : Hist → List Char
  | .MergeStart _ key pos1 pos2 => listSlice key pos1 pos2
  | .MergeStop _ key pos1 pos2 => listSlice key pos1 pos2
  | .UnmergeStart _ key pos => key.drop pos
  | .UnmergeStop _ key pos => key.drop pos
  | _ => []

/-- `Hist::ebuild_version`: `&key[..pos2]` (merge) or the whole key (unmerge). -/
def Hist.ebuild_version : Hist → List Char
  | .MergeStart _ key _ pos2 => key.take pos2
  | .MergeStop _ key _ pos2 => key.take pos2
  | .UnmergeStart _ key _ => key
  | .UnmergeStop _ key _ => key
  | _ => []

/-- `Hist::iter`: `&key[pos2..]` on the merge variants. -/
def Hist.iter : Hist → List Char
  | .MergeStart _ key _ pos2 => key.drop pos2
  | .MergeStop _ key _ pos2 => key.drop pos2
  | _ => []

/-- `Hist::ts`. -/
def Hist.ts : Hist → Int
  | .MergeStart ts _ _ _ => ts
  | .MergeStop ts _ _ _ => ts
  | .UnmergeStart ts _ _ => ts
  | .UnmergeStop ts _ _ => ts
  | .SyncStart ts => ts
  | .SyncStop ts => ts

/-! ### src/parser.rs: split_atom -/
/-- Loop body of `split_atom`, with an explicit iteration budget. `start`
strictly increases every round and stays within the atom while a dash is
found, so any `fuel > atom.length - start` makes the budget inexhaustible;
when it would run out, `start` is already past every dash and the source
loop returns `None` through the failed `find` as well. -/
def splitAtomGo (atom : List Char) : Nat → Nat → Option (List Char × List Char)
  | 0, _ => none
  | fuel + 1, start =>
    match strFind '-' (atom.drop start) with
    | none => none
    | some pos =>
      if atom.length ≤ start + pos + 1 then none
      else if isAsciiDigit (atom.getD (start + pos + 1) ' ') && decide (0 < pos) then
        some (atom.take (start + pos), atom.drop (start + pos + 1))
      else splitAtomGo atom fuel (start + if pos = 0 then 1 else pos)

/-- `split_atom`: split "categ/name-version" into "categ/name" and "version". -/
def split_atom (atom : List Char) : Option (List Char × List Char) :=
  splitAtomGo atom (atom.length + 1) 0

/-! ### src/parser.rs: the per-line parsers -/
/-- `parse_ts`: split the line at the first colon, parse the timestamp,
apply the timestamp filter, then take `&rest[2..]` and trim. The slice
panics when fewer than two bytes follow, which `.error ()` records. -/
def parse_ts (line : List Char) (filter_ts : Int → Bool) :
    Except Unit (Option (Int × List Char)) :=
  match strFind ':' line with
  | none => .ok none
  | some i =>
    let ts_str := line.take i
    let rest := line.drop i
    match parseI64 ts_str with
    | none => .ok none
    | some ts =>
      if filter_ts ts = false then .ok none
      else if 2 ≤ rest.length then .ok (some (ts, trimStart (rest.drop 2)))
      else .error ()

/-- `parse_start`: `">>> emer"` prefixed lines. Token extraction mirrors
`tokens.nth(2)`, `tokens.nth(1)`, `tokens.next()` on the whitespace split.
`&t3[1..]` is `t3.drop 1`; tokens of a whitespace split are never empty. -/
def parse_start (enabled : Bool) (ts : Int) (line : List Char)
    (filter_pkg : List Char → Bool) : Option Hist :=
  if !enabled || !(List.isPrefixOf ['>', '>', '>', ' ', 'e', 'm', 'e', 'r'] line) then none
  else
    let tokens := splitAsciiWhitespace line
    match (iterNth tokens 2).1 with
    | none => none
    | some t3 =>
      match (iterNth (iterNth tokens 2).2 1).1 with
      | none => none
      | some t5 =>
        match ((iterNth (iterNth tokens 2).2 1).2)[0]? with
        | none => none
        | some t6 =>
          match split_atom t6 with
          | none => none
          | some (ebuild, version) =>
            if filter_pkg ebuild = false then none
            else
              let key := ebuild ++ '-' :: (version ++ t5 ++ t3.drop 1)
              let pos1 := ebuild.length + 1
              let pos2 := pos1 + version.length
              some (Hist.MergeStart ts key pos1 pos2)

/-- `parse_stop`: `"::: comp"` prefixed lines, tokens via `nth(3)`,
`nth(1)`, `next()`. -/
def parse_stop (enabled : Bool) (ts : Int) (line : List Char)
    (filter_pkg : List Char → Bool) : Option Hist :=
  if !enabled || !(List.isPrefixOf [':', ':', ':', ' ', 'c', 'o', 'm', 'p'] line) then none
  else
    let tokens := splitAsciiWhitespace line
    match (iterNth tokens 3).1 with
    | none => none
    | some t4 =>
      match (iterNth (iterNth tokens 3).2 1).1 with
      | none => none
      | some t6 =>
        match ((iterNth (iterNth tokens 3).2 1).2)[0]? with
        | none => none
        | some t7 =>
          match split_atom t7 with
          | none => none
          | some (ebuild, version) =>
            if filter_pkg ebuild = false then none
            else
              let key := ebuild ++ '-' :: (version ++ t6 ++ t4.drop 1)
              let pos1 := ebuild.length + 1
              let pos2 := pos1 + version.length
              some (Hist.MergeStop ts key pos1 pos2)

/-- `parse_unmergestart`: `"=== Unmerging..."` lines. The slice
`&t3[1..t3.len()-1]` panics when the token is a single character. -/
def parse_unmergestart (enabled : Bool) (ts : Int) (line : List Char)
    (filter_pkg : List Char → Bool) : Except Unit (Option Hist) :=
  if !enabled ||
      !(List.isPrefixOf
        ['=', '=', '=', ' ', 'U', 'n', 'm', 'e', 'r', 'g', 'i', 'n', 'g', '.', '.', '.'] line) then
    .ok none
  else
    match (iterNth (splitAsciiWhitespace line) 2).1 with
    | none => .ok none
    | some t3 =>
      if t3.length < 2 then .error ()
      else
        match split_atom (listSlice t3 1 (t3.length - 1)) with
        | none => .ok none
        | some (ebuild, version) =>
          if filter_pkg ebuild = false then .ok none
          else .ok (some (Hist.UnmergeStart ts (ebuild ++ '-' :: version) (ebuild.length + 1)))

/-- `parse_unmergestop`: `">>> unmerge success"` lines, atom from `nth(3)`. -/
def parse_unmergestop (enabled : Bool) (ts : Int) (line : List Char)
    (filter_pkg : List Char → Bool) : Option Hist :=
  if !enabled ||
      !(List.isPrefixOf
        ['>', '>', '>', ' ', 'u', 'n', 'm', 'e', 'r', 'g', 'e', ' ',
         's', 'u', 'c', 'c', 'e', 's', 's'] line) then
    none
  else
    match (iterNth (splitAsciiWhitespace line) 3).1 with
    | none => none
    | some t4 =>
      match split_atom t4 with
      | none => none
      | some (ebuild, version) =>
        if filter_pkg ebuild = false then none
        else some (Hist.UnmergeStop ts (ebuild ++ '-' :: version) (ebuild.length + 1))

/-- `parse_syncstart`: the line is exactly `"=== sync"`. -/
def parse_syncstart (enabled : Bool) (ts : Int) (line : List Char) : Option Hist :=
  if !enabled || line ≠ ['=', '=', '=', ' ', 's', 'y', 'n', 'c'] then none
  else some (Hist.SyncStart ts)

/-- `parse_syncstop`: `"=== Sync completed"` prefixed lines. -/
def parse_syncstop (enabled : Bool) (ts : Int) (line : List Char) : Option Hist :=
  if !enabled ||
      !(List.isPrefixOf
        ['=', '=', '=', ' ', 'S', 'y', 'n', 'c', ' ',
         'c', 'o', 'm', 'p', 'l', 'e', 't', 'e', 'd'] line) then
    none
  else some (Hist.SyncStop ts)

/-! ### src/parser.rs: the filters -/
/-- `filter_ts_fn`: missing bounds default to the full `i64` range, the
predicate is `mi <= n && n <= ma`. -/
def filter_ts_fn (min max : Option Int) : Int → Bool :=
  let mi := min.getD i64Min
  let ma := max.getD i64Max
  fun n => decide (mi ≤ n) && decide (n ≤ ma)

/-- The tagged variant built by `filter_pkg_fn`, generic over the regex
engine (the regex crate is external to the repository). -/
inductive FilterPkg (RE : Type)
  | True
  | Eq (e : List Char)
  | Ends (e : List Char)
  | Re (r : RE)

/-- `filter_pkg_fn`, parametrised by the external regex engine: `build pat ci`
compiles a pattern with the case-insensitive flag `ci`, `isMatch` runs a
compiled regex. A build failure is returned to the caller. -/
def filter_pkg_fn (RE : Type) (build : List Char → Bool → Except Unit RE)
    (isMatch : RE → List Char → Bool) (package : Option (List Char)) (exact : Bool) :
    Except Unit (List Char → Bool) :=
  match
    (match package, exact with
     | none, _ => Except.ok (FilterPkg.True : FilterPkg RE)
     | some search, true =>
       if search.contains '/' then Except.ok (FilterPkg.Eq search)
       else Except.ok (FilterPkg.Ends ('/' :: search))
     | some search, false =>
       match build search true with
       | .ok r => Except.ok (FilterPkg.Re r)
       | .error e => Except.error e)
  with
  | .error e => .error e
  | .ok fp =>
    .ok fun s =>
      match fp with
      | .True => true
      | .Eq e => e == s
      | .Ends e => e.isSuffixOf s
      | .Re r => isMatch r s

/-! ### src/parser.rs: the per-line pipeline of new_hist -/
/-- One line of the `new_hist` worker loop: timestamp parsing and filtering,
then the first-match-wins dispatch over the six parsers. `.ok (some ev)`
is an event sent on the channel, `.ok none` a skipped line, `.error ()`
a panic of the worker. -/
def processLine (show_merge show_unmerge show_sync : Bool)
    (filter_ts : Int → Bool) (filter_pkg : List Char → Bool) (line : List Char) :
    Except Unit (Option Hist) :=
  match parse_ts line filter_ts with
  | .error e => .error e
  | .ok none => .ok none
  | .ok (some (t, s)) =>
    match parse_start show_merge t s filter_pkg with
    | some found => .ok (some found)
    | none =>
      match parse_stop show_merge t s filter_pkg with
      | some found => .ok (some found)
      | none =>
        match parse_unmergestart show_unmerge t s filter_pkg with
        | .error e => .error e
        | .ok (some found) => .ok (some found)
        | .ok none =>
          match parse_unmergestop show_unmerge t s filter_pkg with
          | some found => .ok (some found)
          | none =>
            match parse_syncstart show_sync t s with
            | some found => .ok (some found)
            | none =>
              match parse_syncstop show_sync t s with
              | some found => .ok (some found)
              | none => .ok none

/-! ### Claim C1: the example MergeStart line -/
/-- The log line of scenario S1. -/
def c1line : List Char :=
  ['1', '5', '1', '7', '6', '0', '9', '3', '4', '8', ':', ' ', '>', '>', '>', ' ',
   'e', 'm', 'e', 'r', 'g', 'e', ' ', '(', '5', ' ', 'o', 'f', ' ', '1', '2', ')', ' ',
   'd', 'e', 'v', '-', 'l', 'i', 'b', 's', '/', 'f', 'o', 'o', '-',
   '1', '.', '2', '.', '3', ' ', 't', 'o', ' ', '/']

/-- The event the pipeline produces for `c1line`. -/
def c1event : Hist :=
  Hist.MergeStart 1517609348
    ['d', 'e', 'v', '-', 'l', 'i', 'b', 's', '/', 'f', 'o', 'o', '-',
     '1', '.', '2', '.', '3', '1', '2', ')', '5'] 13 18

/-! ### Claim C3: which whitespace tokens the merge parsers consume

In the source, `tokens.nth(2)` consumes elements 0-2, a following
`tokens.nth(1)` consumes 3-4 and yields element 4, and `tokens.next()`
yields element 5; for the stop parser the same chain starting at
`nth(3)` yields elements 3, 5 and 6. -/
/-- The body of `c1line` after the timestamp prefix is removed. -/
def c3body : List Char :=
  ['>', '>', '>', ' ', 'e', 'm', 'e', 'r', 'g', 'e', ' ', '(', '5', ' ', 'o', 'f', ' ',
   '1', '2', ')', ' ', 'd', 'e', 'v', '-', 'l', 'i', 'b', 's', '/', 'f', 'o', 'o', '-',
   '1', '.', '2', '.', '3', ' ', 't', 'o', ' ', '/']

/-! ### src/main.rs: duration formatting -/
/-- The two duration display modes of main.rs. -/
inductive DurationStyle
  | HMS
  | S
  deriving DecidableEq

/-- Decimal digits of a nonnegative number, via the core digit printer. -/
def natToChars (n : Nat) : List Char := Nat.toDigits 10 n

/-- Rust `format!` of an `i64` value. -/
def intToChars (i : Int) : List Char :=
  if i < 0 then '-' :: natToChars (-i).toNat else natToChars i.toNat

/-- Rust `format!` `{:02}` of a small nonnegative value. -/
def pad2 (i : Int) : List Char := if i < 10 then '0' :: intToChars i else intToChars i

/-- `fmt_duration` of main.rs. The divisions only run on nonnegative input,
where Rust truncating division agrees with the Euclidean one used here. -/
def fmt_duration (style : DurationStyle) (secs : Int) : List Char :=
  if secs < 0 then ['?']
  else
    match style with
    | .HMS =>
      let h := secs / 3600
      let m := secs % 3600 / 60
      let s := secs % 60
      if 0 < h then intToChars h ++ ':' :: (pad2 m ++ ':' :: pad2 s)
      else if 0 < m then intToChars m ++ ':' :: pad2 s
      else intToChars s
    | .S => intToChars secs

/-- A dash immediately followed by an ASCII digit, anywhere in the list. -/
def hasDashDigit : List Char → Bool
  | c1 :: c2 :: rest => (c1 = '-' && isAsciiDigit c2) || hasDashDigit (c2 :: rest)
  | _ => false

/-! ### Claim C4: split_atom as a left inverse of concatenation -/
/-- A character allowed in the category part of the test-suite atom shape
(regex class [a-z0-9-]). -/
def isCatChar (c : Char) : Bool :=
  ('a' ≤ c && c ≤ 'z') || ('0' ≤ c && c ≤ '9') || c = '-'

/-- A character allowed in the name part of the test-suite atom shape
(regex class [a-zA-Z0-9_+-]). -/
def isNameChar (c : Char) : Bool :=
  ('a' ≤ c && c ≤ 'z') || ('A' ≤ c && c ≤ 'Z') || ('0' ≤ c && c ≤ '9') ||
    c = '_' || c = '+' || c = '-'

/-- A character allowed after the leading digit of a version
(regex class [0-9a-z._-]). -/
def isVerChar (c : Char) : Bool :=
  isAsciiDigit c || ('a' ≤ c && c ≤ 'z') || c = '.' || c = '_' || c = '-'

/-- A legal package name, per the repository test suite: nonempty category
of [a-z0-9-], a slash, nonempty name of [a-zA-Z0-9_+-]. -/
def legalAtom (l : List Char) : Bool :=
  match strFind '/' l with
  | none => false
  | some i =>
    let c := l.take i
    let n := l.drop (i + 1)
    !c.isEmpty && !n.isEmpty && c.all isCatChar && n.all isNameChar

/-- A legal version, per the repository test suite: [0-9][0-9a-z._-]*. -/
def legalVersion : List Char → Bool
  | [] => false
  | c :: r => isAsciiDigit c && r.all isVerChar

/-! ### src/date.rs: the calendar bucketer

The `time` crate is external to the repository; its types are modelled by
the proleptic Gregorian calendar over unbounded integers: a `Date` is a
triple (year, month, day), `OffsetDateTime::from_unix_timestamp(ts)
.to_offset(offset).date()` is `civilFromDays ((ts + offset) / 86400)`, and
`date.with_hms(0,0,0).assume_offset(offset).unix_timestamp()` is
`86400 * daysFromCivil date - offset`. `daysFromCivil` and `civilFromDays`
are the standard era-based conversions; the roundtrip theorems below
establish that they are mutually inverse bijections between day numbers
and valid dates, which is the contract the crate documents. -/
def isLeap (y : Int) : Bool := decide ((y % 4 = 0 ∧ y % 100 ≠ 0) ∨ y % 400 = 0)

def leapInd (y : Int) : Int := if isLeap y then 1 else 0

def daysInMonth (y m : Int) : Int :=
  if m = 2 then 28 + leapInd y
  else if m = 4 ∨ m = 6 ∨ m = 9 ∨ m = 11 then 30 else 31

def ValidDate (y m d : Int) : Prop := 1 ≤ m ∧ m ≤ 12 ∧ 1 ≤ d ∧ d ≤ daysInMonth y m

instance (y m d : Int) : Decidable (ValidDate y m d) := by unfold ValidDate; infer_instance

def mbase (n : Int) : Int := 365 * n + n / 4 - n / 100 + n / 400

def marchYear (y m : Int) : Int := if m ≤ 2 then y - 1 else y

def marchMonth (m : Int) : Int := if m ≤ 2 then m + 9 else m - 3

def doyOf (mp d : Int) : Int := (153 * mp + 2) / 5 + d - 1

def daysFromCivil (y m d : Int) : Int :=
  mbase (marchYear y m) + doyOf (marchMonth m) d - 719468

def cfdC (doe : Int) : Int := min (doe / 36524) 3

def cfdDC (doe : Int) : Int := doe - 36524 * cfdC doe

def cfdQ (doe : Int) : Int := min (cfdDC doe / 1461) 24

def cfdDQ (doe : Int) : Int := cfdDC doe - 1461 * cfdQ doe

def cfdY4 (doe : Int) : Int := min (cfdDQ doe / 365) 3

def cfdDoy (doe : Int) : Int := cfdDQ doe - 365 * cfdY4 doe

def cfdYoe (doe : Int) : Int := 100 * cfdC doe + 4 * cfdQ doe + cfdY4 doe

def cfdMp (doe : Int) : Int := (5 * cfdDoy doe + 2) / 153

def cfdD (doe : Int) : Int := cfdDoy doe - (153 * cfdMp doe + 2) / 5 + 1

def cfdDate (era doe : Int) : Int × Int × Int :=
  if cfdMp doe ≤ 9 then (400 * era + cfdYoe doe, cfdMp doe + 3, cfdD doe)
  else (400 * era + cfdYoe doe + 1, cfdMp doe - 9, cfdD doe)

def civilFromDays (z : Int) : Int × Int × Int :=
  cfdDate ((z + 719468) / 146097) ((z + 719468) % 146097)

def mdaysM (mp : Int) : Int :=
  if mp = 1 ∨ mp = 3 ∨ mp = 6 ∨ mp = 8 then 30 else if mp = 11 then 29 else 31

inductive Timespan
  | Year
  | Month
  | Week
  | Day
  deriving DecidableEq

def monthNext (m : Int) : Int := if m = 12 then 1 else m + 1

def tillMonday (w : Int) : Int :=
  if w = 0 then 7 else if w = 1 then 6 else if w = 2 then 5 else if w = 3 then 4
  else if w = 4 then 3 else if w = 5 then 2 else 1

def dfc3 (p : Int × Int × Int) : Int := daysFromCivil p.1 p.2.1 p.2.2

def dateWeekday (date : Int × Int × Int) : Int := (dfc3 date + 3) % 7

def addDays (date : Int × Int × Int) (n : Int) : Int × Int × Int :=
  civilFromDays (dfc3 date + n)

def nextDate (span : Timespan) (date : Int × Int × Int) : Int × Int × Int :=
  match span with
  | .Year => (date.1 + 1, 1, 1)
  | .Month => (if date.2.1 = 12 then date.1 + 1 else date.1, monthNext date.2.1, 1)
  | .Week => addDays date (tillMonday (dateWeekday date))
  | .Day => addDays date 1

def Timespan.next (span : Timespan) (ts off : Int) : Int :=
  86400 * dfc3 (nextDate span (civilFromDays ((ts + off) / 86400))) - off

/-! ### src/date.rs: parse_date

The `Parsed` machinery of the external time crate is modelled directly:
components parse as zero-padded fixed-width digit fields with their
documented ranges, missing time fields keep their seeded value 0, an
optional compound rewinds fully on failure, and `OffsetDateTime::try_from`
checks full date validity before producing `unix_timestamp()`. The offset
seeding (whole hours plus absolute minutes and seconds) reconstructs the
offset itself for the whole-hour offsets in scope, so the model takes the
offset in seconds. -/
/-- Parse exactly `n` ASCII digits, returning the value and the rest. -/
def takeDigits (n : Nat) (l : List Char) : Option (Nat × List Char) :=
  let ds := l.take n
  if ds.length = n ∧ ds.all isAsciiDigit then some (digitsVal ds, l.drop n) else none

/-- Consume one expected literal character. -/
def expectChar (c : Char) : List Char → Option (List Char)
  | d :: rest => if d = c then some rest else none
  | [] => none

/-- The optional time-of-day compound: First(["T", " "]), Hour, ":", Minute,
Optional(":", Second). Rewinds (and keeps the defaults) when it fails. -/
def parseTimePart (l : List Char) : Option (Nat × Nat × Nat × List Char) :=
  match l with
  | [] => none
  | c :: rest =>
    if c = 'T' ∨ c = ' ' then
      match takeDigits 2 rest with
      | none => none
      | some (h, r1) =>
        if 23 < h then none
        else
          match expectChar ':' r1 with
          | none => none
          | some r2 =>
            match takeDigits 2 r2 with
            | none => none
            | some (mi, r3) =>
              if 59 < mi then none
              else
                match expectChar ':' r3 with
                | none => some (h, mi, 0, r3)
                | some r3b =>
                  match takeDigits 2 r3b with
                  | none => some (h, mi, 0, r3)
                  | some (se, r4) =>
                    if 59 < se then some (h, mi, 0, r3) else some (h, mi, se, r4)
    else none

/-- `parse_date_yyyymmdd`: flexible rfc3339-like parsing. Year, month and day
are zero-padded fields with the documented component ranges; trailing input
is an error; the final conversion checks full date validity and applies the
offset. -/
def parse_date_yyyymmdd (s : List Char) (off : Int) : Except Unit Int :=
  match takeDigits 4 s with
  | none => .error ()
  | some (y, s1) =>
    match expectChar '-' s1 with
    | none => .error ()
    | some s2 =>
      match takeDigits 2 s2 with
      | none => .error ()
      | some (mo, s3) =>
        if mo < 1 ∨ 12 < mo then .error ()
        else
          match expectChar '-' s3 with
          | none => .error ()
          | some s4 =>
            match takeDigits 2 s4 with
            | none => .error ()
            | some (d, s5) =>
              if d < 1 ∨ 31 < d then .error ()
              else
                let hmsr :=
                  match parseTimePart s5 with
                  | some x => x
                  | none => (0, 0, 0, s5)
                if hmsr.2.2.2 ≠ [] then .error ()
                else if (d : Int) > daysInMonth (y : Int) (mo : Int) then .error ()
                else
                  .ok (daysFromCivil (y : Int) (mo : Int) (d : Int) * 86400 +
                    (hmsr.1 : Int) * 3600 + (hmsr.2.1 : Int) * 60 + (hmsr.2.2.1 : Int) - off)

/-- Rust `str::parse::<i32>` on a digit run. -/
def parseI32 (l : List Char) : Option Int :=
  if l = [] || !(l.all isAsciiDigit) then none
  else
    let v : Int := (digitsVal l : Int)
    if v ≤ 2147483647 then some v else none

/-- The token stream of the ago-parser regex ([0-9]+|[a-z]+): maximal digit
runs and lowercase runs, other characters skipped. -/
def agoTokens : List Char → List (List Char)
  | [] => []
  | c :: rest =>
    if isAsciiDigit c then
      (c :: rest.takeWhile isAsciiDigit) :: agoTokens (rest.dropWhile isAsciiDigit)
    else if 'a' ≤ c ∧ c ≤ 'z' then
      (c :: rest.takeWhile fun d => 'a' ≤ d ∧ d ≤ 'z') ::
        agoTokens (rest.dropWhile fun d => 'a' ≤ d ∧ d ≤ 'z')
    else agoTokens rest
termination_by l => l.length
decreasing_by
  all_goals simp_wf
  all_goals exact Nat.lt_succ_of_le (List.Sublist.length_le (List.dropWhile_sublist _))

/-- Walk the month enum backward n times, decrementing the year on each
December rollover. -/
def monthWalkBack (y m : Int) : Nat → Int × Int
  | 0 => (y, m)
  | n + 1 =>
    let m2 := if m = 1 then 12 else m - 1
    let y2 := if m2 = 12 then y - 1 else y
    monthWalkBack y2 m2 n

/-- One (num, unit) step of the ago-parser acting on the running instant. -/
def agoApplyUnit (now num : Int) (u : List Char) : Except Unit Int :=
  let z := now / 86400
  let sod := now % 86400
  let date := civilFromDays z
  if u = ['y'] ∨ u = ['y', 'e', 'a', 'r'] ∨ u = ['y', 'e', 'a', 'r', 's'] then
    if (date.2.2 : Int) > daysInMonth (date.1 - num) date.2.1 then .error ()
    else .ok (daysFromCivil (date.1 - num) date.2.1 date.2.2 * 86400 + sod)
  else if u = ['m'] ∨ u = ['m', 'o', 'n', 't', 'h'] ∨ u = ['m', 'o', 'n', 't', 'h', 's'] then
    let ym := monthWalkBack date.1 date.2.1 num.toNat
    if (date.2.2 : Int) > daysInMonth ym.1 ym.2 then .error ()
    else .ok (daysFromCivil ym.1 ym.2 date.2.2 * 86400 + sod)
  else if u = ['w'] ∨ u = ['w', 'e', 'e', 'k'] ∨ u = ['w', 'e', 'e', 'k', 's'] then
    .ok (now - num * 604800)
  else if u = ['d'] ∨ u = ['d', 'a', 'y'] ∨ u = ['d', 'a', 'y', 's'] then
    .ok (now - num * 86400)
  else if u = ['h'] ∨ u = ['h', 'o', 'u', 'r'] ∨ u = ['h', 'o', 'u', 'r', 's'] then
    .ok (now - num * 3600)
  else if u = ['m', 'i', 'n'] ∨ u = ['m', 'i', 'n', 's'] ∨
      u = ['m', 'i', 'n', 'u', 't', 'e'] ∨ u = ['m', 'i', 'n', 'u', 't', 'e', 's'] then
    .ok (now - num * 60)
  else if u = ['s'] ∨ u = ['s', 'e', 'c'] ∨ u = ['s', 'e', 'c', 's'] ∨
      u = ['s', 'e', 'c', 'o', 'n', 'd'] ∨ u = ['s', 'e', 'c', 'o', 'n', 'd', 's'] then
    .ok (now - num)
  else .error ()

/-- The (num, unit) pair loop of `parse_date_ago`. -/
def agoLoop : List (List Char) → Int → Bool → Except Unit Int
  | [], now, atLeastOne => if atLeastOne then .ok now else .error ()
  | t :: ts, now, _ =>
    match parseI32 t with
    | none => .error ()
    | some num =>
      match ts with
      | [] => .error ()
      | u :: ts2 =>
        match agoApplyUnit now num u with
        | .error e => .error e
        | .ok now2 => agoLoop ts2 now2 true

/-- `parse_date_ago`: reject any character that is not alphanumeric, space or
comma, then run the (number, unit) pair loop from the current instant. -/
def parse_date_ago (s : List Char) (now : Int) : Except Unit Int :=
  if !(s.all fun c => c.isAlphanum || c = ' ' || c = ',') then .error ()
  else agoLoop (agoTokens s) now false

/-- `parse_date`: trim, then try a plain i64 timestamp, the flexible
yyyy-mm-dd format, and finally the relative ago-format. -/
def parse_date (s : List Char) (off : Int) (now : Int) : Except Unit Int :=
  let s2 := trim s
  match parseI64 s2 with
  | some v => .ok v
  | none =>
    match parse_date_yyyymmdd s2 off with
    | .ok v => .ok v
    | .error _ =>
      match parse_date_ago s2 now with
      | .ok v => .ok v
      | .error _ => .error ()

/-- C1: parsing the log line "1517609348: >>> emerge (5 of 12) dev-libs/foo-1.2.3
to /" with merges enabled, no timestamp filter and no package filter produces
exactly the MergeStart event with ts 1517609348, package "dev-libs/foo",
version "1.2.3" and iteration string "12)5". -/
theorem c1_example_merge_start :
    processLine true false false (filter_ts_fn none none) (fun _ => true) c1line =
      .ok (some c1event) ∧
    c1event.ts = 1517609348 ∧
    c1event.ebuild = ['d', 'e', 'v', '-', 'l', 'i', 'b', 's', '/', 'f', 'o', 'o'] ∧
    c1event.version = ['1', '.', '2', '.', '3'] ∧
    c1event.iter = ['1', '2', ')', '5'] :=
  ⟨rfl, rfl, rfl, rfl, rfl⟩

/-- C3 counterexample: on the scenario-S1 line body the start parser succeeds,
and the package atom it used is token 5 of the whitespace split, not token 6
(token 6 is "to"), refuting the claimed indices. -/
theorem c3_claimed_indices_false :
    parse_start true 1517609348 c3body (fun _ => true) = some c1event ∧
    (splitAsciiWhitespace c3body)[5]? =
      some ['d', 'e', 'v', '-', 'l', 'i', 'b', 's', '/', 'f', 'o', 'o', '-',
            '1', '.', '2', '.', '3'] ∧
    (splitAsciiWhitespace c3body)[6]? = some ['t', 'o'] ∧
    c1event.ebuild_version =
      ['d', 'e', 'v', '-', 'l', 'i', 'b', 's', '/', 'f', 'o', 'o', '-',
       '1', '.', '2', '.', '3'] ∧
    (['d', 'e', 'v', '-', 'l', 'i', 'b', 's', '/', 'f', 'o', 'o', '-',
      '1', '.', '2', '.', '3'] : List Char) ≠ ['t', 'o'] :=
  ⟨rfl, rfl, rfl, rfl, by decide⟩

/-- C3 (amended): for every MergeStart line the whitespace-split tokens used
are tok 2 (with its first character dropped), tok 4 (the "M)" part) and tok 5
(the package atom); for every MergeStop line they are tok 3, tok 5 and tok 6. -/
theorem c3_merge_token_indices :
    (∀ (enabled : Bool) (ts : Int) (line : List Char) (fp : List Char → Bool) (ev : Hist),
      parse_start enabled ts line fp = some ev →
      ∃ t3 t5 t6 e v,
        (splitAsciiWhitespace line)[2]? = some t3 ∧
        (splitAsciiWhitespace line)[4]? = some t5 ∧
        (splitAsciiWhitespace line)[5]? = some t6 ∧
        split_atom t6 = some (e, v) ∧
        ev = Hist.MergeStart ts (e ++ '-' :: (v ++ t5 ++ t3.drop 1))
              (e.length + 1) (e.length + 1 + v.length)) ∧
    (∀ (enabled : Bool) (ts : Int) (line : List Char) (fp : List Char → Bool) (ev : Hist),
      parse_stop enabled ts line fp = some ev →
      ∃ t4 t6 t7 e v,
        (splitAsciiWhitespace line)[3]? = some t4 ∧
        (splitAsciiWhitespace line)[5]? = some t6 ∧
        (splitAsciiWhitespace line)[6]? = some t7 ∧
        split_atom t7 = some (e, v) ∧
        ev = Hist.MergeStop ts (e ++ '-' :: (v ++ t6 ++ t4.drop 1))
              (e.length + 1) (e.length + 1 + v.length)) := by
  constructor
  · intro enabled ts line fp ev h
    unfold parse_start at h
    split at h
    · exact absurd h (by simp)
    · simp only [iterNth, List.getElem?_drop] at h
      split at h
      · exact absurd h (by simp)
      · rename_i t3 ht3
        split at h
        · exact absurd h (by simp)
        · rename_i t5 ht5
          split at h
          · exact absurd h (by simp)
          · rename_i t6 ht6
            split at h
            · exact absurd h (by simp)
            · rename_i e v hsplit
              split at h
              · exact absurd h (by simp)
              · injection h with h
                subst h
                exact ⟨t3, t5, t6, e, v, ht3, by simpa using ht5, by simpa using ht6,
                  hsplit, rfl⟩
  · intro enabled ts line fp ev h
    unfold parse_stop at h
    split at h
    · exact absurd h (by simp)
    · simp only [iterNth, List.getElem?_drop] at h
      split at h
      · exact absurd h (by simp)
      · rename_i t4 ht4
        split at h
        · exact absurd h (by simp)
        · rename_i t6 ht6
          split at h
          · exact absurd h (by simp)
          · rename_i t7 ht7
            split at h
            · exact absurd h (by simp)
            · rename_i e v hsplit
              split at h
              · exact absurd h (by simp)
              · injection h with h
                subst h
                exact ⟨t4, t6, t7, e, v, ht4, by simpa using ht6, by simpa using ht7,
                  hsplit, rfl⟩

/-- C3 witness: the amended start-side token extraction, checked on the
concrete scenario line body. -/
theorem c3_merge_token_indices_witness :
    ∃ t3 t5 t6 e v,
      (splitAsciiWhitespace c3body)[2]? = some t3 ∧
      (splitAsciiWhitespace c3body)[4]? = some t5 ∧
      (splitAsciiWhitespace c3body)[5]? = some t6 ∧
      split_atom t6 = some (e, v) ∧
      c1event = Hist.MergeStart 1517609348 (e ++ '-' :: (v ++ t5 ++ t3.drop 1))
            (e.length + 1) (e.length + 1 + v.length) :=
  c3_merge_token_indices.1 true 1517609348 c3body (fun _ => true) c1event rfl

/-! ### Claim C2: totality of the per-line parser

The claim does not hold of the code: a line consisting of a timestamp
directly followed by the final colon reaches the slice `&rest[2..]` with
`rest` of length one, which aborts the worker. -/
/-- C2: a line with a bad integer before the colon is skipped (".ok none")
as the claim says, but the line "1234:" is parsed up to a valid timestamp
that passes the trivial filter and then the per-line parser aborts
(".error ()") instead of skipping the line with a warning. -/
theorem c2_per_line_parser_aborts :
    processLine true true true (filter_ts_fn none none) (fun _ => true)
      ['1', '2', 'a', '3', ':', ' ', 'x'] = .ok none ∧
    parse_ts ['1', '2', '3', '4', ':'] (filter_ts_fn none none) = .error () ∧
    processLine true true true (filter_ts_fn none none) (fun _ => true)
      ['1', '2', '3', '4', ':'] = .error () :=
  ⟨rfl, rfl, rfl⟩

/-! ### Claim C7: the timestamp filter -/
/-- Events produced by `parse_start` carry the timestamp handed to it. -/
theorem parse_start_ts_eq (en : Bool) (t : Int) (s : List Char) (f : List Char → Bool)
    (ev : Hist) (h : parse_start en t s f = some ev) : ev.ts = t := by
  unfold parse_start at h
  simp only [iterNth] at h
  repeat' split at h
  all_goals first
    | exact Option.noConfusion h
    | (injection h with h; exact Option.noConfusion h)
    | (injection h with h; subst h; rfl)

/-- Events produced by `parse_stop` carry the timestamp handed to it. -/
theorem parse_stop_ts_eq (en : Bool) (t : Int) (s : List Char) (f : List Char → Bool)
    (ev : Hist) (h : parse_stop en t s f = some ev) : ev.ts = t := by
  unfold parse_stop at h
  simp only [iterNth] at h
  repeat' split at h
  all_goals first
    | exact Option.noConfusion h
    | (injection h with h; exact Option.noConfusion h)
    | (injection h with h; subst h; rfl)

/-- Events produced by `parse_unmergestart` carry the timestamp handed to it. -/
theorem parse_unmergestart_ts_eq (en : Bool) (t : Int) (s : List Char) (f : List Char → Bool)
    (ev : Hist) (h : parse_unmergestart en t s f = .ok (some ev)) : ev.ts = t := by
  unfold parse_unmergestart at h
  simp only [iterNth] at h
  repeat' split at h
  all_goals first
    | exact Except.noConfusion h
    | (injection h with h; exact Option.noConfusion h)
    | (injection h with h; injection h with h; subst h; rfl)

/-- Events produced by `parse_unmergestop` carry the timestamp handed to it. -/
theorem parse_unmergestop_ts_eq (en : Bool) (t : Int) (s : List Char) (f : List Char → Bool)
    (ev : Hist) (h : parse_unmergestop en t s f = some ev) : ev.ts = t := by
  unfold parse_unmergestop at h
  simp only [iterNth] at h
  repeat' split at h
  all_goals first
    | exact Option.noConfusion h
    | (injection h with h; exact Option.noConfusion h)
    | (injection h with h; subst h; rfl)

/-- Events produced by `parse_syncstart` carry the timestamp handed to it. -/
theorem parse_syncstart_ts_eq (en : Bool) (t : Int) (s : List Char)
    (ev : Hist) (h : parse_syncstart en t s = some ev) : ev.ts = t := by
  unfold parse_syncstart at h
  repeat' split at h
  all_goals first
    | exact Option.noConfusion h
    | (injection h with h; subst h; rfl)

/-- Events produced by `parse_syncstop` carry the timestamp handed to it. -/
theorem parse_syncstop_ts_eq (en : Bool) (t : Int) (s : List Char)
    (ev : Hist) (h : parse_syncstop en t s = some ev) : ev.ts = t := by
  unfold parse_syncstop at h
  repeat' split at h
  all_goals first
    | exact Option.noConfusion h
    | (injection h with h; subst h; rfl)

/-- A line reaching the dispatch stage passed the timestamp filter. -/
theorem parse_ts_passes (line : List Char) (f : Int → Bool) (t : Int) (s : List Char)
    (h : parse_ts line f = .ok (some (t, s))) : f t = true := by
  unfold parse_ts at h
  simp only [] at h
  repeat' split at h
  all_goals simp_all

/-- Every event the per-line pipeline emits passed the timestamp filter. -/
theorem processLine_ts_passes (sm su ss : Bool) (fts : Int → Bool) (fpkg : List Char → Bool)
    (line : List Char) (ev : Hist)
    (h : processLine sm su ss fts fpkg line = .ok (some ev)) : fts ev.ts = true := by
  unfold processLine at h
  split at h
  · exact Except.noConfusion h
  · exact absurd h (by simp)
  · rename_i t s hts
    have hf := parse_ts_passes line fts t s hts
    split at h
    · rename_i found hfound
      injection h with h; injection h with h; subst h
      rw [parse_start_ts_eq _ _ _ _ _ hfound]; exact hf
    · split at h
      · rename_i found hfound
        injection h with h; injection h with h; subst h
        rw [parse_stop_ts_eq _ _ _ _ _ hfound]; exact hf
      · split at h
        · exact Except.noConfusion h
        · rename_i found hfound
          injection h with h; injection h with h; subst h
          rw [parse_unmergestart_ts_eq _ _ _ _ _ hfound]; exact hf
        · split at h
          · rename_i found hfound
            injection h with h; injection h with h; subst h
            rw [parse_unmergestop_ts_eq _ _ _ _ _ hfound]; exact hf
          · split at h
            · rename_i found hfound
              injection h with h; injection h with h; subst h
              rw [parse_syncstart_ts_eq _ _ _ _ hfound]; exact hf
            · split at h
              · rename_i found hfound
                injection h with h; injection h with h; subst h
                rw [parse_syncstop_ts_eq _ _ _ _ hfound]; exact hf
              · exact absurd h (by simp)

/-- C7: the timestamp filter accepts ts iff min <= ts <= max, missing bounds
defaulting to the widest representable 64-bit values, and every event the
pipeline emits satisfies those bounds. -/
theorem c7_timestamp_filter_inclusive :
    (∀ (mn mx : Option Int) (n : Int),
        filter_ts_fn mn mx n = true ↔ mn.getD i64Min ≤ n ∧ n ≤ mx.getD i64Max) ∧
    (∀ (mn mx : Option Int) (sm su ss : Bool) (fpkg : List Char → Bool)
        (line : List Char) (ev : Hist),
        processLine sm su ss (filter_ts_fn mn mx) fpkg line = .ok (some ev) →
        mn.getD i64Min ≤ ev.ts ∧ ev.ts ≤ mx.getD i64Max) := by
  have hiff : ∀ (mn mx : Option Int) (n : Int),
      filter_ts_fn mn mx n = true ↔ mn.getD i64Min ≤ n ∧ n ≤ mx.getD i64Max := by
    intro mn mx n
    simp [filter_ts_fn]
  refine ⟨hiff, ?_⟩
  intro mn mx sm su ss fpkg line ev h
  exact (hiff mn mx ev.ts).1 (processLine_ts_passes _ _ _ _ _ _ _ h)

/-- C7 witness: with bounds 1 and 2000000000 the scenario line is emitted and
its timestamp lies within the bounds. -/
theorem c7_timestamp_filter_inclusive_witness :
    (some (1 : Int)).getD i64Min ≤ c1event.ts ∧
    c1event.ts ≤ (some (2000000000 : Int)).getD i64Max :=
  c7_timestamp_filter_inclusive.2 (some 1) (some 2000000000) true false false
    (fun _ => true) c1line c1event rfl

/-! ### Claim C8: the package filter -/
/-- C8: the package filter is the four-case tagged variant of the source:
no search string accepts everything; exact with a slash is string equality
on category/name; exact without a slash accepts exactly a "/"+search suffix;
otherwise one regex is built with the case-insensitive flag and used for
matching, and a build failure is returned to the caller at construction. -/
theorem c8_package_filter_cases :
    ∀ (RE : Type) (build : List Char → Bool → Except Unit RE)
      (isMatch : RE → List Char → Bool) (search : Option (List Char)) (exact : Bool),
      (search = none →
        ∃ f, filter_pkg_fn RE build isMatch search exact = .ok f ∧ ∀ s, f s = true) ∧
      (∀ str, search = some str → exact = true → str.contains '/' = true →
        ∃ f, filter_pkg_fn RE build isMatch search exact = .ok f ∧
          ∀ s, f s = (str == s)) ∧
      (∀ str, search = some str → exact = true → str.contains '/' = false →
        ∃ f, filter_pkg_fn RE build isMatch search exact = .ok f ∧
          ∀ s, f s = List.isSuffixOf ('/' :: str) s) ∧
      (∀ str, search = some str → exact = false →
        (∀ r, build str true = .ok r →
          ∃ f, filter_pkg_fn RE build isMatch search exact = .ok f ∧
            ∀ s, f s = isMatch r s) ∧
        (∀ e, build str true = .error e →
          filter_pkg_fn RE build isMatch search exact = .error e)) := by
  intro RE build isMatch search exact
  refine ⟨?_, ?_, ?_, ?_⟩
  · rintro rfl
    exact ⟨_, rfl, fun s => rfl⟩
  · rintro str rfl rfl hslash
    refine ⟨_, ?_, fun s => rfl⟩
    simp at hslash
    simp [filter_pkg_fn, hslash]
  · rintro str rfl rfl hslash
    refine ⟨_, ?_, fun s => rfl⟩
    simp at hslash
    simp [filter_pkg_fn, hslash]
  · rintro str rfl rfl
    constructor
    · intro r hr
      refine ⟨_, ?_, fun s => rfl⟩
      simp [filter_pkg_fn, hr]
    · intro e he
      simp [filter_pkg_fn, he]

/-- C8 witness: the regex case at concrete instantiations of the engine. -/
theorem c8_package_filter_cases_witness :
    ∃ f, filter_pkg_fn Unit (fun _ _ => Except.ok ()) (fun _ _ => false)
        (some ['a']) false = .ok f ∧ ∀ s, f s = false :=
  ((c8_package_filter_cases Unit (fun _ _ => Except.ok ()) (fun _ _ => false)
    (some ['a']) false).2.2.2 ['a'] rfl rfl).1 () rfl

/-- C9: a negative duration renders as "?" in both modes; in hms mode the
format is H:MM:SS from one hour up, M:SS from one minute up to an hour, and
the plain seconds below a minute; in s mode it is the plain seconds. -/
theorem c9_fmt_duration_shape :
    ∀ secs : Int,
      (secs < 0 → fmt_duration DurationStyle.HMS secs = ['?'] ∧
        fmt_duration DurationStyle.S secs = ['?']) ∧
      (0 ≤ secs → fmt_duration DurationStyle.S secs = intToChars secs) ∧
      (3600 ≤ secs → fmt_duration DurationStyle.HMS secs =
        intToChars (secs / 3600) ++ ':' :: (pad2 (secs % 3600 / 60) ++ ':' :: pad2 (secs % 60))) ∧
      (60 ≤ secs → secs < 3600 → fmt_duration DurationStyle.HMS secs =
        intToChars (secs / 60) ++ ':' :: pad2 (secs % 60)) ∧
      (0 ≤ secs → secs < 60 → fmt_duration DurationStyle.HMS secs = intToChars secs) := by
  intro secs
  refine ⟨?_, ?_, ?_, ?_, ?_⟩
  · intro h
    constructor <;> simp [fmt_duration, h]
  · intro h
    simp [fmt_duration, show ¬secs < 0 by omega]
  · intro h
    have h0 : ¬secs < 0 := by omega
    have h1 : 0 < secs / 3600 := by omega
    simp [fmt_duration, h0, h1]
  · intro h h2
    have h0 : ¬secs < 0 := by omega
    have h1 : ¬0 < secs / 3600 := by omega
    have h4 : secs % 3600 = secs := by omega
    have h3 : 0 < secs / 60 := by omega
    simp [fmt_duration, h0, h1, h4, h3]
  · intro h h2
    have h0 : ¬secs < 0 := by omega
    have h1 : ¬0 < secs / 3600 := by omega
    have h4 : secs % 3600 = secs := by omega
    have h3 : ¬0 < secs / 60 := by omega
    have h5 : secs % 60 = secs := by omega
    simp [fmt_duration, h0, h1, h4, h3, h5]

/-- C9 witness: the shapes evaluated for 3661, 61, 59 and a negative input. -/
theorem c9_fmt_duration_shape_witness :
    fmt_duration DurationStyle.HMS 3661 =
      intToChars ((3661 : Int) / 3600) ++ ':' ::
        (pad2 ((3661 : Int) % 3600 / 60) ++ ':' :: pad2 ((3661 : Int) % 60)) ∧
    fmt_duration DurationStyle.HMS 61 = intToChars ((61 : Int) / 60) ++ ':' :: pad2 ((61 : Int) % 60) ∧
    fmt_duration DurationStyle.HMS 59 = intToChars 59 ∧
    fmt_duration DurationStyle.HMS (-7) = ['?'] ∧
    fmt_duration DurationStyle.S (-7) = ['?'] :=
  ⟨(c9_fmt_duration_shape 3661).2.2.1 (by norm_num),
   (c9_fmt_duration_shape 61).2.2.2.1 (by norm_num) (by norm_num),
   (c9_fmt_duration_shape 59).2.2.2.2 (by norm_num) (by norm_num),
   ((c9_fmt_duration_shape (-7)).1 (by norm_num)).1,
   ((c9_fmt_duration_shape (-7)).1 (by norm_num)).2⟩

/-! ### Facts about `strFind` and `split_atom` -/
/-- A found index lies within the list. -/
theorem strFind_some_lt (c : Char) (l : List Char) (p : Nat) (h : strFind c l = some p) :
    p < l.length := by
  induction l generalizing p with
  | nil => simp [strFind] at h
  | cons a rest ih =>
    simp only [strFind] at h
    split at h
    · injection h with h
      subst h
      simp
    · cases hr : strFind c rest with
      | none => rw [hr] at h; simp at h
      | some q =>
        rw [hr] at h
        simp at h
        have := ih q hr
        simp only [List.length_cons]
        omega

/-- The found index holds the sought character. -/
theorem strFind_found (c : Char) (l : List Char) (p : Nat) (h : strFind c l = some p) :
    l[p]? = some c := by
  induction l generalizing p with
  | nil => simp [strFind] at h
  | cons a rest ih =>
    simp only [strFind] at h
    split at h
    · rename_i ha
      injection h with h
      subst h
      simp [ha]
    · cases hr : strFind c rest with
      | none => rw [hr] at h; simp at h
      | some q =>
        rw [hr] at h
        simp at h
        subst h
        simpa using ih q hr

/-- A find in a prefix is a find in the concatenation. -/
theorem strFind_append_some (c : Char) (xs ys : List Char) (p : Nat)
    (h : strFind c xs = some p) : strFind c (xs ++ ys) = some p := by
  induction xs generalizing p with
  | nil => simp [strFind] at h
  | cons a rest ih =>
    simp only [strFind] at h
    simp only [List.cons_append, strFind, List.append_eq]
    split at h
    · rename_i ha
      rw [if_pos ha]
      exact h
    · rename_i ha
      rw [if_neg ha]
      cases hr : strFind c rest with
      | none => rw [hr] at h; simp at h
      | some q =>
        rw [hr] at h
        simp at h
        rw [ih q hr]
        simpa using h

/-- A find past a character-free prefix shifts by the prefix length. -/
theorem strFind_append_none (c : Char) (xs ys : List Char)
    (h : strFind c xs = none) : strFind c (xs ++ ys) = (strFind c ys).map (xs.length + ·) := by
  induction xs with
  | nil => simp
  | cons a rest ih =>
    simp only [strFind] at h
    simp only [List.cons_append, strFind, List.append_eq]
    split at h
    · simp at h
    · rename_i ha
      rw [if_neg ha]
      cases hr : strFind c rest with
      | none =>
        rw [ih hr]
        cases hy : strFind c ys <;>
          simp [List.length_cons, Nat.add_comm, Nat.add_assoc, Nat.add_left_comm]
      | some q => rw [hr] at h; simp at h

/-- What a successful `splitAtomGo` returns: a split of the atom at a dash
that is followed by an ASCII digit and has a nonempty left side. -/
theorem splitAtomGo_spec (atom : List Char) :
    ∀ (fuel start : Nat) (a b : List Char),
      splitAtomGo atom fuel start = some (a, b) →
      ∃ j, 1 ≤ j ∧ j + 1 < atom.length ∧ a = atom.take j ∧ b = atom.drop (j + 1) ∧
        atom[j]? = some '-' ∧ ∃ ch, atom[j + 1]? = some ch ∧ isAsciiDigit ch = true := by
  intro fuel
  induction fuel with
  | zero => intro start a b h; exact Option.noConfusion h
  | succ fuel ih =>
    intro start a b h
    simp only [splitAtomGo] at h
    split at h
    · exact Option.noConfusion h
    · rename_i pos hf
      split at h
      · exact Option.noConfusion h
      · rename_i hlen
        split at h
        · rename_i hcond
          injection h with h
          injection h with h1 h2
          simp only [Bool.and_eq_true, decide_eq_true_eq] at hcond
          have hlen2 : ¬atom.length ≤ start + pos + 1 := hlen
          refine ⟨start + pos, by omega, by omega, h1.symm, h2.symm, ?_, ?_⟩
          · have := strFind_found '-' (atom.drop start) pos hf
            rwa [List.getElem?_drop] at this
          · refine ⟨atom.getD (start + pos + 1) ' ', ?_, hcond.1⟩
            rw [List.getD_eq_getElem?_getD]
            cases hx : atom[start + pos + 1]? with
            | none =>
              rw [List.getElem?_eq_none_iff] at hx
              omega
            | some x => rfl
        · exact ih _ a b h

/-- Top-level spec of `split_atom`. -/
theorem split_atom_spec (atom a b : List Char) (h : split_atom atom = some (a, b)) :
    ∃ j, 1 ≤ j ∧ j + 1 < atom.length ∧ a = atom.take j ∧ b = atom.drop (j + 1) ∧
      atom[j]? = some '-' ∧ ∃ ch, atom[j + 1]? = some ch ∧ isAsciiDigit ch = true :=
  splitAtomGo_spec atom _ _ a b h

/-- A successful split recomposes the atom, the left part is nonempty, and
the right part starts with an ASCII digit. -/
theorem split_atom_recompose (atom a b : List Char) (h : split_atom atom = some (a, b)) :
    a ++ '-' :: b = atom ∧ 1 ≤ a.length ∧ b ≠ [] ∧
      ∃ ch, b.head? = some ch ∧ isAsciiDigit ch = true := by
  obtain ⟨j, hj1, hjlen, ha, hb, hdash, ch, hch, hdig⟩ := split_atom_spec atom a b h
  have hj : j < atom.length := by omega
  have hget : atom[j] = '-' := by
    have := List.getElem?_eq_getElem hj
    rw [hdash] at this
    exact (Option.some_injective _ this.symm)
  constructor
  · subst ha hb
    have := List.take_append_drop j atom
    rw [List.drop_eq_getElem_cons hj] at this
    rw [hget] at this
    exact this
  constructor
  · subst ha
    simp [List.length_take]
    omega
  constructor
  · subst hb
    intro hcon
    have : atom.length - (j + 1) = 0 := by
      rw [← List.length_drop, hcon]
      rfl
    omega
  · subst hb
    refine ⟨ch, ?_, hdig⟩
    rw [List.head?_eq_getElem?, List.getElem?_drop]
    simpa using hch

/-! ### Claim C10: invariants of constructed merge events -/
/-- The invariant bundle for events built by `parse_start`. -/
theorem parse_start_invariants (enabled : Bool) (ts : Int) (line : List Char)
    (fp : List Char → Bool) (ev : Hist) (h : parse_start enabled ts line fp = some ev) :
    ∃ e v r, ev = Hist.MergeStart ts (e ++ '-' :: (v ++ r))
        (e.length + 1) (e.length + 1 + v.length) ∧
      ev.ebuild = e ∧ ev.version = v ∧ ev.ebuild_version = e ++ '-' :: v ∧
      e.length + 1 + v.length ≤ (e ++ '-' :: (v ++ r)).length ∧
      v ≠ [] ∧ ∃ ch, v.head? = some ch ∧ isAsciiDigit ch = true := by
  unfold parse_start at h
  simp only [iterNth] at h
  repeat' split at h
  all_goals first
    | exact Option.noConfusion h
    | skip
  rename_i x1 t3 ht3 x2 t5 ht5 x3 t6 ht6 x4 e v hsplit hfp
  injection h with h
  subst h
  obtain ⟨hrec, hlen, hne, ch, hch, hdig⟩ := split_atom_recompose t6 e v hsplit
  refine ⟨e, v, t5 ++ t3.tail, ?_, ?_, ?_, ?_, ?_, hne, ch, hch, hdig⟩
  · simp [List.append_assoc]
  · simp [Hist.ebuild, List.take_left' rfl]
  · show listSlice (e ++ '-' :: (v ++ t5 ++ List.drop 1 t3)) (e.length + 1)
      (e.length + 1 + v.length) = v
    unfold listSlice
    rw [show e ++ '-' :: (v ++ t5 ++ List.drop 1 t3) =
        ((e ++ ['-']) ++ v) ++ (t5 ++ List.drop 1 t3) by simp]
    rw [List.take_left' (by simp; omega), List.drop_left' (by simp)]
  · show (e ++ '-' :: (v ++ t5 ++ List.drop 1 t3)).take (e.length + 1 + v.length) =
      e ++ '-' :: v
    rw [show e ++ '-' :: (v ++ t5 ++ List.drop 1 t3) =
        ((e ++ ['-']) ++ v) ++ (t5 ++ List.drop 1 t3) by simp]
    rw [List.take_left' (by simp; omega)]
    simp
  · simp
    omega

/-- The invariant bundle for events built by `parse_stop`. -/
theorem parse_stop_invariants (enabled : Bool) (ts : Int) (line : List Char)
    (fp : List Char → Bool) (ev : Hist) (h : parse_stop enabled ts line fp = some ev) :
    ∃ e v r, ev = Hist.MergeStop ts (e ++ '-' :: (v ++ r))
        (e.length + 1) (e.length + 1 + v.length) ∧
      ev.ebuild = e ∧ ev.version = v ∧ ev.ebuild_version = e ++ '-' :: v ∧
      e.length + 1 + v.length ≤ (e ++ '-' :: (v ++ r)).length ∧
      v ≠ [] ∧ ∃ ch, v.head? = some ch ∧ isAsciiDigit ch = true := by
  unfold parse_stop at h
  simp only [iterNth] at h
  repeat' split at h
  all_goals first
    | exact Option.noConfusion h
    | skip
  rename_i x1 t4 ht4 x2 t6 ht6 x3 t7 ht7 x4 e v hsplit hfp
  injection h with h
  subst h
  obtain ⟨hrec, hlen, hne, ch, hch, hdig⟩ := split_atom_recompose t7 e v hsplit
  refine ⟨e, v, t6 ++ t4.tail, ?_, ?_, ?_, ?_, ?_, hne, ch, hch, hdig⟩
  · simp [List.append_assoc]
  · simp [Hist.ebuild, List.take_left' rfl]
  · show listSlice (e ++ '-' :: (v ++ t6 ++ List.drop 1 t4)) (e.length + 1)
      (e.length + 1 + v.length) = v
    unfold listSlice
    rw [show e ++ '-' :: (v ++ t6 ++ List.drop 1 t4) =
        ((e ++ ['-']) ++ v) ++ (t6 ++ List.drop 1 t4) by simp]
    rw [List.take_left' (by simp; omega), List.drop_left' (by simp)]
  · show (e ++ '-' :: (v ++ t6 ++ List.drop 1 t4)).take (e.length + 1 + v.length) =
      e ++ '-' :: v
    rw [show e ++ '-' :: (v ++ t6 ++ List.drop 1 t4) =
        ((e ++ ['-']) ++ v) ++ (t6 ++ List.drop 1 t4) by simp]
    rw [List.take_left' (by simp; omega)]
    simp
  · simp
    omega

/-- C10: every MergeStart and MergeStop event built by the line parsers has
pos1 = package length + 1 and pos2 = pos1 + version length, both within the
key, the accessors return the package, the version, and their dash-joined
concatenation, and the version is nonempty and starts with an ASCII digit. -/
theorem c10_event_index_invariants :
    (∀ (enabled : Bool) (ts : Int) (line : List Char) (fp : List Char → Bool) (ev : Hist),
      parse_start enabled ts line fp = some ev →
      ∃ e v r, ev = Hist.MergeStart ts (e ++ '-' :: (v ++ r))
          (e.length + 1) (e.length + 1 + v.length) ∧
        ev.ebuild = e ∧ ev.version = v ∧ ev.ebuild_version = e ++ '-' :: v ∧
        e.length + 1 + v.length ≤ (e ++ '-' :: (v ++ r)).length ∧
        v ≠ [] ∧ ∃ ch, v.head? = some ch ∧ isAsciiDigit ch = true) ∧
    (∀ (enabled : Bool) (ts : Int) (line : List Char) (fp : List Char → Bool) (ev : Hist),
      parse_stop enabled ts line fp = some ev →
      ∃ e v r, ev = Hist.MergeStop ts (e ++ '-' :: (v ++ r))
          (e.length + 1) (e.length + 1 + v.length) ∧
        ev.ebuild = e ∧ ev.version = v ∧ ev.ebuild_version = e ++ '-' :: v ∧
        e.length + 1 + v.length ≤ (e ++ '-' :: (v ++ r)).length ∧
        v ≠ [] ∧ ∃ ch, v.head? = some ch ∧ isAsciiDigit ch = true) :=
  ⟨parse_start_invariants, parse_stop_invariants⟩

/-- C10 witness: the invariant bundle instantiated on the scenario line. -/
theorem c10_event_index_invariants_witness :
    ∃ e v r, c1event = Hist.MergeStart 1517609348 (e ++ '-' :: (v ++ r))
        (e.length + 1) (e.length + 1 + v.length) ∧
      c1event.ebuild = e ∧ c1event.version = v ∧ c1event.ebuild_version = e ++ '-' :: v ∧
      e.length + 1 + v.length ≤ (e ++ '-' :: (v ++ r)).length ∧
      v ≠ [] ∧ ∃ ch, v.head? = some ch ∧ isAsciiDigit ch = true :=
  c10_event_index_invariants.1 true 1517609348 c3body (fun _ => true) c1event rfl

theorem hasDashDigit_false_no_digit : ∀ (l : List Char), hasDashDigit l = false →
    ∀ (i : Nat) (c2 : Char), l[i]? = some '-' → l[i + 1]? = some c2 →
      isAsciiDigit c2 = false := by
  intro l
  induction l with
  | nil => intro _ i c2 h1; simp at h1
  | cons a rest ih =>
    intro h i c2 h1 h2
    cases rest with
    | nil =>
      rcases i with _ | n <;> simp at h2
    | cons b rest2 =>
      simp only [hasDashDigit, Bool.or_eq_false_iff, Bool.and_eq_false_iff] at h
      rcases i with _ | n
      · simp at h1 h2
        subst h1 h2
        rcases h.1 with h' | h'
        · simp at h'
        · exact h'
      · exact ih h.2 n c2 (by simpa using h1) (by simpa using h2)

theorem splitAtomGo_concat (pkg : List Char) (v : Char) (r : List Char)
    (hd : hasDashDigit pkg = false) (hl : pkg.getLast? ≠ some '-')
    (hdig : isAsciiDigit v = true) :
    ∀ (fuel start : Nat), start + 1 ≤ pkg.length →
      pkg.length + 2 + r.length < fuel + start →
      splitAtomGo (pkg ++ '-' :: v :: r) fuel start = some (pkg, v :: r) := by
  have hlast : pkg[pkg.length - 1]? ≠ some '-' := by
    rwa [← List.getLast?_eq_getElem?]
  intro fuel
  induction fuel with
  | zero =>
    intro start hstart hfuel
    omega
  | succ fuel ih =>
    intro start hstart hfuel
    have hdropeq : (pkg ++ '-' :: v :: r).drop start = pkg.drop start ++ '-' :: v :: r :=
      List.drop_append_of_le_length (by omega)
    simp only [splitAtomGo]
    cases hfd : strFind '-' (pkg.drop start) with
    | none =>
      have hfind : strFind '-' ((pkg ++ '-' :: v :: r).drop start) =
          some (pkg.length - start) := by
        rw [hdropeq, strFind_append_none '-' _ _ hfd]
        simp [strFind, List.length_drop]
      simp only [hfind]
      have hpos : ¬((pkg ++ '-' :: v :: r).length ≤ start + (pkg.length - start) + 1) := by
        simp [List.length_append]
        omega
      rw [if_neg hpos]
      have hidx : start + (pkg.length - start) + 1 = pkg.length + 1 := by omega
      have hgetd : (pkg ++ '-' :: v :: r).getD (start + (pkg.length - start) + 1) ' ' = v := by
        rw [hidx, List.getD_eq_getElem?_getD, List.getElem?_append_right (by omega)]
        simp
      rw [hgetd]
      have hcond : (isAsciiDigit v && decide (0 < pkg.length - start)) = true := by
        simp [hdig]
        omega
      rw [if_pos hcond]
      have h1 : List.take (start + (pkg.length - start)) (pkg ++ '-' :: v :: r) = pkg := by
        rw [show start + (pkg.length - start) = pkg.length by omega]
        exact List.take_left' rfl
      have h2 : List.drop (start + (pkg.length - start) + 1) (pkg ++ '-' :: v :: r) = v :: r := by
        rw [hidx, show pkg ++ '-' :: v :: r = (pkg ++ ['-']) ++ v :: r by simp]
        exact List.drop_left' (by simp)
      rw [h1, h2]
    | some p =>
      have hplt : p < pkg.length - start := by
        have := strFind_some_lt '-' _ _ hfd
        simpa [List.length_drop] using this
      have hdash : pkg[start + p]? = some '-' := by
        have := strFind_found '-' _ _ hfd
        rwa [List.getElem?_drop] at this
      have hne_last : start + p ≠ pkg.length - 1 := by
        intro hcon
        rw [← hcon] at hlast
        exact hlast hdash
      have hlt2 : start + p + 1 < pkg.length := by omega
      have hfind : strFind '-' ((pkg ++ '-' :: v :: r).drop start) = some p := by
        rw [hdropeq]
        exact strFind_append_some '-' _ _ p hfd
      simp only [hfind]
      have hpos : ¬((pkg ++ '-' :: v :: r).length ≤ start + p + 1) := by
        simp [List.length_append]
        omega
      rw [if_neg hpos]
      obtain ⟨c, hc⟩ : ∃ c, pkg[start + p + 1]? = some c := by
        cases hx : pkg[start + p + 1]? with
        | none =>
          rw [List.getElem?_eq_none_iff] at hx
          omega
        | some c => exact ⟨c, rfl⟩
      have hgetd : (pkg ++ '-' :: v :: r).getD (start + p + 1) ' ' = c := by
        rw [List.getD_eq_getElem?_getD, List.getElem?_append_left (by omega), hc]
        rfl
      have hnotdig : isAsciiDigit c = false :=
        hasDashDigit_false_no_digit pkg hd (start + p) c hdash hc
      rw [hgetd]
      have hcond : ¬((isAsciiDigit c && decide (0 < p)) = true) := by
        simp [hnotdig]
      rw [if_neg hcond]
      apply ih
      · split <;> omega
      · split <;> omega

/-- The loop of `split_atom` with full budget, on a legal concatenation. -/
theorem split_atom_concat (pkg : List Char) (v : Char) (r : List Char)
    (hd : hasDashDigit pkg = false) (hne : pkg ≠ []) (hl : pkg.getLast? ≠ some '-')
    (hdig : isAsciiDigit v = true) :
    split_atom (pkg ++ '-' :: v :: r) = some (pkg, v :: r) := by
  unfold split_atom
  apply splitAtomGo_concat pkg v r hd hl hdig
  · cases pkg with
    | nil => exact absurd rfl hne
    | cons a l => simp
  · simp only [List.length_append, List.length_cons]
    omega

/-- C4 counterexample: "a-0b/c" and "x/a-" are legal package names and "1" is
a legal version, yet split_atom does not return the pair back on their
concatenations: the dash-digit inside "a-0b" captures the split, and the
trailing dash of "x/a-" makes the split fail altogether. -/
theorem c4_left_inverse_false :
    legalAtom ['a', '-', '0', 'b', '/', 'c'] = true ∧
    legalAtom ['x', '/', 'a', '-'] = true ∧
    legalVersion ['1'] = true ∧
    split_atom (['a', '-', '0', 'b', '/', 'c'] ++ '-' :: ['1']) =
      some (['a'], ['0', 'b', '/', 'c', '-', '1']) ∧
    split_atom (['a', '-', '0', 'b', '/', 'c'] ++ '-' :: ['1']) ≠
      some (['a', '-', '0', 'b', '/', 'c'], ['1']) ∧
    split_atom (['x', '/', 'a', '-'] ++ '-' :: ['1']) = none :=
  ⟨rfl, rfl, rfl, rfl, by decide, rfl⟩

/-- C4 (amended): split_atom is a left inverse of concatenation for every
nonempty package name that contains no dash immediately followed by an ASCII
digit and does not end in a dash, and every legal version: then
split_atom (pkg ++ "-" ++ ver) = (pkg, ver). -/
theorem c4_split_atom_left_inverse (pkg ver : List Char)
    (hpkg1 : pkg ≠ []) (hpkg2 : hasDashDigit pkg = false)
    (hpkg3 : pkg.getLast? ≠ some '-') (hver : legalVersion ver = true) :
    split_atom (pkg ++ '-' :: ver) = some (pkg, ver) := by
  cases ver with
  | nil => simp [legalVersion] at hver
  | cons v r =>
    simp only [legalVersion, Bool.and_eq_true] at hver
    exact split_atom_concat pkg v r hpkg2 hpkg1 hpkg3 hver.1

/-- C4 witness: the left-inverse property on "dev-libs/foo" and "1.2.3". -/
theorem c4_split_atom_left_inverse_witness :
    split_atom (['d', 'e', 'v', '-', 'l', 'i', 'b', 's', '/', 'f', 'o', 'o'] ++
        '-' :: ['1', '.', '2', '.', '3']) =
      some (['d', 'e', 'v', '-', 'l', 'i', 'b', 's', '/', 'f', 'o', 'o'],
        ['1', '.', '2', '.', '3']) :=
  c4_split_atom_left_inverse
    ['d', 'e', 'v', '-', 'l', 'i', 'b', 's', '/', 'f', 'o', 'o']
    ['1', '.', '2', '.', '3'] (by decide) (by decide) (by decide) (by decide)

theorem mbase_succ (n : Int) : mbase (n + 1) = mbase n + 365 + leapInd (n + 1) := by
  unfold mbase leapInd isLeap
  simp only [decide_eq_true_eq]
  split_ifs with h <;> omega

theorem mbase_mono (a b : Int) (h : a ≤ b) : mbase a + 365 * (b - a) ≤ mbase b := by
  unfold mbase
  omega

theorem mbase_era (era yoe : Int) (h0 : 0 ≤ yoe) (h1 : yoe ≤ 399) :
    mbase (400 * era + yoe) = 146097 * era + (365 * yoe + yoe / 4 - yoe / 100) := by
  unfold mbase
  omega

theorem era_structure (doe : Int) (h0 : 0 ≤ doe) (h1 : doe < 146097) :
    0 ≤ cfdYoe doe ∧ cfdYoe doe ≤ 399 ∧
    0 ≤ cfdDoy doe ∧ cfdDoy doe ≤ 365 ∧
    365 * cfdYoe doe + cfdYoe doe / 4 - cfdYoe doe / 100 + cfdDoy doe = doe ∧
    (cfdDoy doe = 365 →
      (((cfdYoe doe + 1) % 4 = 0 ∧ (cfdYoe doe + 1) % 100 ≠ 0) ∨ (cfdYoe doe + 1) % 400 = 0)) := by
  have hC : 0 ≤ cfdC doe ∧ cfdC doe ≤ 3 := by unfold cfdC; omega
  have hDC : cfdDC doe = doe - 36524 * cfdC doe ∧ 0 ≤ cfdDC doe ∧ cfdDC doe ≤ 36524 ∧
      (cfdDC doe = 36524 → cfdC doe = 3) := by
    unfold cfdDC cfdC
    omega
  have hQ : 0 ≤ cfdQ doe ∧ cfdQ doe ≤ 24 := by unfold cfdQ; omega
  have hDQ : cfdDQ doe = cfdDC doe - 1461 * cfdQ doe ∧ 0 ≤ cfdDQ doe ∧ cfdDQ doe ≤ 1460 := by
    unfold cfdDQ cfdQ
    omega
  have hY4 : 0 ≤ cfdY4 doe ∧ cfdY4 doe ≤ 3 := by unfold cfdY4; omega
  have hDoy : cfdDoy doe = cfdDQ doe - 365 * cfdY4 doe ∧ 0 ≤ cfdDoy doe ∧ cfdDoy doe ≤ 365 ∧
      (cfdDoy doe = 365 → cfdY4 doe = 3 ∧ cfdDQ doe = 1460) := by
    unfold cfdDoy cfdY4
    omega
  have hyoe : cfdYoe doe = 100 * cfdC doe + 4 * cfdQ doe + cfdY4 doe := rfl
  have hdiv4 : cfdYoe doe / 4 = 25 * cfdC doe + cfdQ doe := by rw [hyoe]; omega
  have hdiv100 : cfdYoe doe / 100 = cfdC doe := by rw [hyoe]; omega
  refine ⟨by omega, by omega, by omega, by omega, ?_, ?_⟩
  · rw [hdiv4, hdiv100]
    omega
  · intro h365
    obtain ⟨hy4, hdq⟩ := hDoy.2.2.2 h365
    have hq24 : cfdQ doe ≤ 23 ∨ cfdDC doe = 36524 := by omega
    rcases hq24 with hq | hdc
    · left
      constructor <;> omega
    · right
      have := hDC.2.2.2 hdc
      omega

theorem month_extract (doy mp d : Int) (h0 : 0 ≤ doy) (h1 : doy ≤ 365)
    (hmp : mp = (5 * doy + 2) / 153) (hd : d = doy - (153 * mp + 2) / 5 + 1) :
    0 ≤ mp ∧ mp ≤ 11 ∧ 1 ≤ d ∧ doyOf mp d = doy ∧ d ≤ mdaysM mp ∧
    (doy = 365 ↔ (mp = 11 ∧ d = 29)) := by
  have hb0 : 0 ≤ mp := by omega
  have hb1 : mp ≤ 11 := by omega
  unfold doyOf mdaysM
  interval_cases mp <;> omega

theorem leapInd_cases (y : Int) : leapInd y = 0 ∨ leapInd y = 1 := by
  unfold leapInd
  split_ifs <;> simp

theorem leapInd_one (y : Int)
    (h : (y % 4 = 0 ∧ y % 100 ≠ 0) ∨ y % 400 = 0) : leapInd y = 1 := by
  unfold leapInd isLeap
  simp only [decide_eq_true_eq]
  rw [if_pos h]

/-- Conversion back from a day number is a valid date whose day number is the
input: the backward direction of the civil-calendar bijection. -/
theorem civilFromDays_spec (z : Int) :
    ValidDate (civilFromDays z).1 (civilFromDays z).2.1 (civilFromDays z).2.2 ∧
    daysFromCivil (civilFromDays z).1 (civilFromDays z).2.1 (civilFromDays z).2.2 = z := by
  have hcfd : civilFromDays z = cfdDate ((z + 719468) / 146097) ((z + 719468) % 146097) := rfl
  set era := (z + 719468) / 146097 with hera
  set doe := (z + 719468) % 146097 with hdoe
  have hd0 : 0 ≤ doe := Int.emod_nonneg _ (by norm_num)
  have hd1 : doe < 146097 := Int.emod_lt_of_pos _ (by norm_num)
  have hz : 146097 * era + doe = z + 719468 := by rw [hera, hdoe]; omega
  obtain ⟨hy0, hy1, hdoy0, hdoy1, hiden, hleap⟩ := era_structure doe hd0 hd1
  obtain ⟨hmp0, hmp1, hdge, hdoyeq, hdmax, hiff⟩ :=
    month_extract (cfdDoy doe) (cfdMp doe) (cfdD doe) hdoy0 hdoy1 rfl rfl
  rw [hcfd]
  unfold cfdDate
  split_ifs with hmp9 <;> dsimp only
  · constructor
    · refine ⟨by omega, by omega, hdge, ?_⟩
      revert hdmax
      unfold daysInMonth mdaysM
      have := leapInd_cases (400 * era + cfdYoe doe)
      split_ifs <;> omega
    · unfold daysFromCivil marchYear marchMonth
      rw [if_neg (by omega : ¬(cfdMp doe + 3 ≤ 2)), if_neg (by omega : ¬(cfdMp doe + 3 ≤ 2))]
      rw [show cfdMp doe + 3 - 3 = cfdMp doe by omega]
      rw [mbase_era era _ hy0 hy1, hdoyeq]
      omega
  · have hm1011 : cfdMp doe = 10 ∨ cfdMp doe = 11 := by omega
    constructor
    · refine ⟨by omega, by omega, hdge, ?_⟩
      rcases hm1011 with hmp | hmp
      · rw [hmp] at hdmax ⊢
        unfold daysInMonth
        unfold mdaysM at hdmax
        norm_num at hdmax ⊢
        omega
      · rw [hmp] at hdmax ⊢
        unfold mdaysM at hdmax
        norm_num at hdmax ⊢
        unfold daysInMonth
        norm_num
        rcases Int.lt_or_le (cfdD doe) 29 with hlt | hge
        · have := leapInd_cases (400 * era + cfdYoe doe + 1)
          omega
        · have hd29 : cfdD doe = 29 := by omega
          have h365 : cfdDoy doe = 365 := hiff.2 ⟨hmp, hd29⟩
          have := leapInd_one (400 * era + cfdYoe doe + 1) (by
            have := hleap h365
            omega)
          omega
    · rcases hm1011 with hmp | hmp <;>
      · rw [hmp] at hdoyeq ⊢
        unfold daysFromCivil marchYear marchMonth
        norm_num
        rw [mbase_era era _ hy0 hy1]
        omega

/-- Day-of-march-year bounds for a valid date. -/
theorem doy_bounds (y m d : Int) (h : ValidDate y m d) :
    0 ≤ doyOf (marchMonth m) d ∧
    doyOf (marchMonth m) d < 365 + leapInd (marchYear y m + 1) := by
  obtain ⟨hm1, hm2, hd1, hd2⟩ := h
  have hliA := leapInd_cases y
  have hliB := leapInd_cases (y + 1)
  unfold daysInMonth at hd2
  unfold doyOf marchMonth marchYear
  interval_cases m <;> simp_all <;> omega

/-- Calendar order maps to lexicographic order on march-style coordinates. -/
theorem cal_lt_march_lex (y1 m1 d1 y2 m2 d2 : Int)
    (hv1 : ValidDate y1 m1 d1) (hv2 : ValidDate y2 m2 d2)
    (hlt : y1 < y2 ∨ (y1 = y2 ∧ (m1 < m2 ∨ (m1 = m2 ∧ d1 < d2)))) :
    marchYear y1 m1 < marchYear y2 m2 ∨
      (marchYear y1 m1 = marchYear y2 m2 ∧
        (marchMonth m1 < marchMonth m2 ∨ (marchMonth m1 = marchMonth m2 ∧ d1 < d2))) := by
  obtain ⟨ha1, ha2, _, _⟩ := hv1
  obtain ⟨hb1, hb2, _, _⟩ := hv2
  unfold marchYear marchMonth
  split_ifs <;> omega

/-- Upper bound of the day of year against the start of the next march
month. -/
theorem doy_upper (y m d : Int) (h : ValidDate y m d) :
    doyOf (marchMonth m) d < (153 * (marchMonth m + 1) + 2) / 5 := by
  obtain ⟨hm1, hm2, hd1, hd2⟩ := h
  have hli := leapInd_cases y
  unfold daysInMonth at hd2
  unfold doyOf marchMonth
  interval_cases m <;> simp_all <;> omega

theorem doy_lt_of_month_lt (y1 m1 d1 y2 m2 d2 : Int)
    (hv1 : ValidDate y1 m1 d1) (hv2 : ValidDate y2 m2 d2)
    (hmm : marchMonth m1 < marchMonth m2) :
    doyOf (marchMonth m1) d1 < doyOf (marchMonth m2) d2 := by
  have hup := doy_upper y1 m1 d1 hv1
  have hd2 : 1 ≤ d2 := hv2.2.2.1
  have hmono : (153 * (marchMonth m1 + 1) + 2) / 5 ≤ (153 * marchMonth m2 + 2) / 5 := by
    omega
  unfold doyOf at *
  omega

/-- Strict monotonicity of the day number in the calendar order. -/
theorem daysFromCivil_lt (y1 m1 d1 y2 m2 d2 : Int)
    (hv1 : ValidDate y1 m1 d1) (hv2 : ValidDate y2 m2 d2)
    (hlt : y1 < y2 ∨ (y1 = y2 ∧ (m1 < m2 ∨ (m1 = m2 ∧ d1 < d2)))) :
    daysFromCivil y1 m1 d1 < daysFromCivil y2 m2 d2 := by
  rcases cal_lt_march_lex y1 m1 d1 y2 m2 d2 hv1 hv2 hlt with hy | ⟨hy, hrest⟩
  · obtain ⟨hlo1, hhi1⟩ := doy_bounds y1 m1 d1 hv1
    obtain ⟨hlo2, hhi2⟩ := doy_bounds y2 m2 d2 hv2
    have hsucc := mbase_succ (marchYear y1 m1)
    have hmono := mbase_mono (marchYear y1 m1 + 1) (marchYear y2 m2) (by omega)
    unfold daysFromCivil
    omega
  · rcases hrest with hmm | ⟨hmm, hdd⟩
    · have := doy_lt_of_month_lt y1 m1 d1 y2 m2 d2 hv1 hv2 hmm
      unfold daysFromCivil
      rw [hy]
      omega
    · unfold daysFromCivil doyOf
      rw [hy, hmm]
      omega

/-- Forward roundtrip: on valid dates, converting to a day number and back is
the identity. -/
theorem daysFromCivil_civilFromDays (y m d : Int) (h : ValidDate y m d) :
    civilFromDays (daysFromCivil y m d) = (y, m, d) := by
  obtain ⟨hv, hinv⟩ := civilFromDays_spec (daysFromCivil y m d)
  set c := civilFromDays (daysFromCivil y m d) with hc
  have htri : c = (y, m, d) ∨
      (c.1 < y ∨ (c.1 = y ∧ (c.2.1 < m ∨ (c.2.1 = m ∧ c.2.2 < d)))) ∨
      (y < c.1 ∨ (y = c.1 ∧ (m < c.2.1 ∨ (m = c.2.1 ∧ d < c.2.2)))) := by
    rcases lt_trichotomy c.1 y with h1 | h1 | h1
    · right; left; left; exact h1
    · rcases lt_trichotomy c.2.1 m with h2 | h2 | h2
      · right; left; right; exact ⟨h1, Or.inl h2⟩
      · rcases lt_trichotomy c.2.2 d with h3 | h3 | h3
        · right; left; right; exact ⟨h1, Or.inr ⟨h2, h3⟩⟩
        · left
          rw [show c = (c.1, c.2.1, c.2.2) from rfl, h1, h2, h3]
        · right; right; right; exact ⟨h1.symm, Or.inr ⟨h2.symm, h3⟩⟩
      · right; right; right; exact ⟨h1.symm, Or.inl h2⟩
    · right; right; left; exact h1
  rcases htri with he | hlt | hgt
  · exact he
  · have := daysFromCivil_lt c.1 c.2.1 c.2.2 y m d hv h hlt
    omega
  · have := daysFromCivil_lt y m d c.1 c.2.1 c.2.2 h hv hgt
    omega

theorem addDays_day_number (z n : Int) :
    dfc3 (addDays (civilFromDays z) n) = z + n := by
  obtain ⟨hv, hinv⟩ := civilFromDays_spec z
  obtain ⟨hv2, hinv2⟩ := civilFromDays_spec (daysFromCivil (civilFromDays z).1
    (civilFromDays z).2.1 (civilFromDays z).2.2 + n)
  unfold addDays dfc3 at *
  omega

theorem daysInMonth_ge (y m : Int) : 28 ≤ daysInMonth y m := by
  have := leapInd_cases y
  unfold daysInMonth
  split_ifs <;> omega

/-- C5: for every timestamp, offset and span, Timespan::next returns a value
strictly greater than ts whose wall clock in the offset is midnight of the
stated boundary: January 1 of the next year, the first of the next month
(December rolling over), the next Monday per the distance table, or the next
day. -/
theorem c5_timespan_next_boundary (span : Timespan) (ts off : Int) :
    ts < span.next ts off ∧
    (span.next ts off + off) % 86400 = 0 ∧
    (let d := civilFromDays ((ts + off) / 86400)
     let r := civilFromDays ((span.next ts off + off) / 86400)
     match span with
     | .Year => r = (d.1 + 1, 1, 1)
     | .Month => r = (if d.2.1 = 12 then d.1 + 1 else d.1, monthNext d.2.1, 1)
     | .Week => dfc3 r = dfc3 d + tillMonday (dateWeekday d) ∧ dateWeekday r = 0
     | .Day => dfc3 r = dfc3 d + 1) := by
  have hzfloor : 86400 * ((ts + off) / 86400) ≤ ts + off ∧
      ts + off < 86400 * ((ts + off) / 86400 + 1) := by omega
  obtain ⟨hv, hinv⟩ := civilFromDays_spec ((ts + off) / 86400)
  cases span with
  | Year =>
    have hval2 : ValidDate ((civilFromDays ((ts + off) / 86400)).1 + 1) 1 1 := by
      refine ⟨by omega, by omega, by omega, ?_⟩
      have := daysInMonth_ge ((civilFromDays ((ts + off) / 86400)).1 + 1) 1
      omega
    have hlt := daysFromCivil_lt _ _ _ _ _ _ hv hval2 (Or.inl (by omega))
    have hrt := daysFromCivil_civilFromDays _ _ _ hval2
    simp only [Timespan.next, nextDate, dfc3] at *
    refine ⟨by omega, by omega, ?_⟩
    have hq : (86400 * daysFromCivil ((civilFromDays ((ts + off) / 86400)).1 + 1) 1 1 - off +
        off) / 86400 = daysFromCivil ((civilFromDays ((ts + off) / 86400)).1 + 1) 1 1 := by
      omega
    rw [hq, hrt]
  | Month =>
    have hm12 := hv.1
    have hm12b := hv.2.1
    by_cases hm : (civilFromDays ((ts + off) / 86400)).2.1 = 12
    · have hval2 : ValidDate ((civilFromDays ((ts + off) / 86400)).1 + 1) (monthNext 12) 1 := by
        refine ⟨by simp [monthNext], by simp [monthNext], by omega, ?_⟩
        have := daysInMonth_ge ((civilFromDays ((ts + off) / 86400)).1 + 1) (monthNext 12)
        omega
      have hlt := daysFromCivil_lt _ _ _ _ _ _ hv hval2 (Or.inl (by omega))
      have hrt := daysFromCivil_civilFromDays _ _ _ hval2
      simp only [Timespan.next, nextDate, dfc3, hm, if_pos] at *
      refine ⟨by omega, by omega, ?_⟩
      have hq : (86400 * daysFromCivil ((civilFromDays ((ts + off) / 86400)).1 + 1)
          (monthNext 12) 1 - off + off) / 86400 =
          daysFromCivil ((civilFromDays ((ts + off) / 86400)).1 + 1) (monthNext 12) 1 := by
        omega
      rw [hq, hrt]
    · have hval2 : ValidDate ((civilFromDays ((ts + off) / 86400)).1)
          (monthNext ((civilFromDays ((ts + off) / 86400)).2.1)) 1 := by
        unfold monthNext
        rw [if_neg hm]
        refine ⟨by omega, by omega, by omega, ?_⟩
        have := daysInMonth_ge ((civilFromDays ((ts + off) / 86400)).1)
          ((civilFromDays ((ts + off) / 86400)).2.1 + 1)
        omega
      have hmlt : (civilFromDays ((ts + off) / 86400)).2.1 <
          monthNext ((civilFromDays ((ts + off) / 86400)).2.1) := by
        unfold monthNext
        rw [if_neg hm]
        omega
      have hlt := daysFromCivil_lt _ _ _ _ _ _ hv hval2 (Or.inr ⟨rfl, Or.inl hmlt⟩)
      have hrt := daysFromCivil_civilFromDays _ _ _ hval2
      simp only [Timespan.next, nextDate, dfc3, if_neg hm] at *
      refine ⟨by omega, by omega, ?_⟩
      have hq : (86400 * daysFromCivil ((civilFromDays ((ts + off) / 86400)).1)
          (monthNext ((civilFromDays ((ts + off) / 86400)).2.1)) 1 - off + off) / 86400 =
          daysFromCivil ((civilFromDays ((ts + off) / 86400)).1)
            (monthNext ((civilFromDays ((ts + off) / 86400)).2.1)) 1 := by
        omega
      rw [hq, hrt]
  | Week =>
    set z := (ts + off) / 86400 with hzdef
    have hdz : dfc3 (civilFromDays z) = z := hinv
    have hw : dateWeekday (civilFromDays z) = (z + 3) % 7 := by
      unfold dateWeekday
      rw [hdz]
    set w := dateWeekday (civilFromDays z) with hwdef
    set till := tillMonday w with htdef
    have htill : (1 ≤ till ∧ till ≤ 7) ∧ (till + w) % 7 = 0 := by
      rw [htdef]
      unfold tillMonday
      split_ifs <;> omega
    have had : dfc3 (addDays (civilFromDays z) till) = z + till := addDays_day_number z till
    obtain ⟨hv2, hinv2⟩ := civilFromDays_spec (z + till)
    have hd2 : dfc3 (civilFromDays (z + till)) = z + till := hinv2
    simp only [Timespan.next, nextDate]
    rw [← hwdef, ← htdef, had]
    refine ⟨by omega, by omega, ?_, ?_⟩
    · have hq : (86400 * (z + till) - off + off) / 86400 = z + till := by omega
      rw [hq]
      omega
    · have hq : (86400 * (z + till) - off + off) / 86400 = z + till := by omega
      rw [hq]
      unfold dateWeekday
      omega
  | Day =>
    set z := (ts + off) / 86400 with hzdef
    have hdz : dfc3 (civilFromDays z) = z := hinv
    have had : dfc3 (addDays (civilFromDays z) 1) = z + 1 := addDays_day_number z 1
    obtain ⟨hv2, hinv2⟩ := civilFromDays_spec (z + 1)
    have hd2 : dfc3 (civilFromDays (z + 1)) = z + 1 := hinv2
    simp only [Timespan.next, nextDate]
    rw [had]
    refine ⟨by omega, by omega, ?_⟩
    have hq : (86400 * (z + 1) - off + off) / 86400 = z + 1 := by omega
    rw [hq]
    omega

/-- C6: parse_date on the documented absolute inputs: a plain epoch number is
returned as is, a bare date defaults the time fields to zero, a full
date-time converts at UTC, the +01:00 offset shifts the result back by an
hour, and trailing junk after a date-time is rejected. -/
theorem c6_parse_date_absolute :
    parse_date ['1', '5', '2', '2', '7', '1', '3', '6', '0', '0'] 0 0 = .ok 1522713600 ∧
    parse_date ['2', '0', '1', '8', '-', '0', '4', '-', '0', '3'] 0 0 = .ok 1522713600 ∧
    parse_date ['2', '0', '1', '8', '-', '0', '4', '-', '0', '3', ' ',
      '0', '1', ':', '0', '1', ':', '0', '1'] 0 0 = .ok 1522717261 ∧
    parse_date ['2', '0', '1', '8', '-', '0', '4', '-', '0', '3', ' ',
      '0', '1', ':', '0', '1', ':', '0', '1'] 3600 0 = .ok 1522713661 ∧
    parse_date ['2', '0', '1', '8', '-', '0', '4', '-', '0', '3', ' ',
      '0', '1', ':', '0', '1', ':', '0', '1', 'j', 'u', 'n', 'k'] 0 0 = .error () ∧
    parse_date ['2', '0', '1', '8', '-', '0', '4', '-', '0', '3', 'T',
      '0', '1', ':', '0', '1', ':', '0', '1', 'j', 'u', 'n', 'k'] 0 0 = .error () :=
  ⟨rfl, rfl, rfl, rfl, rfl, rfl⟩

end Emlop
